import Mathlib

/-!
# VideoMerlin — transcript-to-timeline segmentation core

A shallow embedding of the segmentation core of `src/server/transcription.ts`:
the keyword extractor `extractKeywords`, the time formatter `formatTime`, and
the two historical variants of the segment builder `generateTimelineSegments`
(the duration-driven "Policy A" and the analysis-driven "Policy B").

JavaScript numbers are modelled as exact rationals (`ℚ`); `Math.floor`,
`Math.ceil`, `Math.min`/`Math.max` become `Int.floor`, `Int.ceil`, `min`/`max`.
JavaScript's `%` on numbers (remainder with truncating quotient) is modelled by
`jsMod`.  Strings are Lean `String`s; `\w` is the ASCII word-character class.
-/

namespace VideoMerlin

section RatComputable

/- The Batteries `Rat` field operations are `@[irreducible]`, which blocks the
elaborator-side evaluation performed by `decide` on concrete rationals; the
kernel accepts the resulting proofs either way.  Restore reducibility locally
so concrete instances of the definitions below can be settled by `decide`. -/
attribute [local semireducible] Rat.mul Rat.inv Rat.add Rat.sub

/-- Model of `TranscriptLine` from `src/shared/schema.ts`. -/
structure TranscriptLine where
  speaker : String
  text : String
  start : ℚ
  «end» : ℚ
  timestamp : ℚ
  deriving Repr, DecidableEq, Inhabited

/-- Entries of `VideoAnalysis.mainTopics` (`{ name: string; icon: string }`). -/
structure MainTopic where
  name : String
  icon : String
  deriving Repr, DecidableEq, Inhabited

/-- Entries of `VideoAnalysis.partialTopics` (`{ name: string; reason: string }`). -/
structure PartialTopic where
  name : String
  reason : String
  deriving Repr, DecidableEq, Inhabited

/-- Model of `Speaker` from `src/shared/schema.ts`. -/
structure Speaker where
  name : String
  role : String
  speakingTime : ℚ
  deriving Repr, DecidableEq, Inhabited

/-- Entries of `VideoAnalysis.decisions`. -/
structure Decision where
  decision : String
  actionItems : List String
  deriving Repr, DecidableEq, Inhabited

/-- Model of `VideoAnalysis` from `src/shared/schema.ts`. -/
structure VideoAnalysis where
  summary : String
  highlights : List String
  mainTopics : List MainTopic
  partialTopics : List PartialTopic
  speakers : List Speaker
  decisions : List Decision
  deriving Repr, DecidableEq, Inhabited

/-- Model of `TimelineSegment` from `src/shared/schema.ts`; the emitted `startTime` /
`endTime` are the `Math.floor`ed integer values. -/
structure TimelineSegment where
  topic : String
  description : String
  startTime : ℤ
  endTime : ℤ
  keywords : List String
  color : String
  deriving Repr, DecidableEq, Inhabited

/-- The regex class `\w`: ASCII letters, digits and underscore. -/
def isWordChar (c : Char) : Bool :=
  c.isAlpha || c.isDigit || c = '_'

/-- Splitting a character stream at every character satisfying `p`
(tokens between consecutive separators are empty strings).  This models
`String.prototype.split(/\s+/)` up to empty tokens, which the caller
discards by the length filter in `extractKeywords`. -/
def splitOnPred (p : Char → Bool) : List Char → List String
  | [] => [""]
  | c :: cs =>
    if p c then "" :: splitOnPred p cs
    else
      match splitOnPred p cs with
      | [] => [String.mk [c]]
      | w :: ws => String.mk (c :: w.data) :: ws

/-- The token pipeline of `extractKeywords`: lower-case, strip characters
outside the word and whitespace classes, split on whitespace, and keep only
tokens longer than 4 characters. -/
def jsWords (text : String) : List String :=
  (splitOnPred Char.isWhitespace
      ((text.data.map Char.toLower).filter fun c => isWordChar c || c.isWhitespace)).filter
    fun w => 4 < w.length

/-- One step of the `wordCount` map update:
`wordCount.set(word, (wordCount.get(word) || 0) + 1)` on an insertion-ordered
association list (JavaScript `Map` preserves insertion order). -/
def bump : List (String × ℕ) → String → List (String × ℕ)
  | [], w => [(w, 1)]
  | (k, n) :: rest, w =>
    if k = w then (k, n + 1) :: rest else (k, n) :: bump rest w

/-- The `wordCount` map after processing all words, as an insertion-ordered
association list. -/
def countWords (ws : List String) : List (String × ℕ) :=
  ws.foldl bump []

/-- The comparator `(a, b) => b[1] - a[1]`: `a` may come before `b` exactly
when `a`'s count is at least `b`'s. -/
def countGE (a b : String × ℕ) : Prop :=
  b.2 ≤ a.2

instance : DecidableRel countGE := fun a b => inferInstanceAs (Decidable (b.2 ≤ a.2))

instance : IsTotal (String × ℕ) countGE := ⟨fun a b => le_total b.2 a.2⟩

instance : IsTrans (String × ℕ) countGE := ⟨fun _ _ _ h1 h2 => le_trans h2 h1⟩

/-- Model of `extractKeywords` from `src/server/transcription.ts`.  JavaScript's
`Array.prototype.sort` is a stable sort; it is modelled by the stable
`List.insertionSort` with the descending-count comparator. -/
def extractKeywords (text : String) : List String :=
  let words := jsWords text
  let wordCount := countWords words
  ((List.insertionSort countGE wordCount).take 5).map Prod.fst

/-- Truncation toward zero, as JavaScript's `%` computes its quotient. -/
def ratTrunc (q : ℚ) : ℤ :=
  if 0 ≤ q then ⌊q⌋ else ⌈q⌉

/-- JavaScript's `%` on numbers: `a - b * trunc(a / b)`. -/
def jsMod (a b : ℚ) : ℚ :=
  a - b * (ratTrunc (a / b) : ℚ)

/-- Zero-padding to width 2, the padStart call of `formatTime`. -/
def padStart2 (s : String) : String :=
  if s.length < 2 then String.mk (List.replicate (2 - s.length) '0') ++ s else s

/-- Model of `formatTime` from `src/server/transcription.ts`. -/
def formatTime (seconds : ℚ) : String :=
  let mins := ⌊seconds / 60⌋
  let secs := ⌊jsMod seconds 60⌋
  toString mins ++ ":" ++ padStart2 (toString secs)

/-- The fixed 5-entry palette `colors`. -/
def colors : List String :=
  ["#E8F4F8", "#FFE5E5", "#FFF4E5", "#E8F8E8", "#F0E8F8"]

/-- The loop body of Policy A `generateTimelineSegments` at index `i`, given
the enclosing `totalDuration` and `segmentDuration`. -/
def policyASegment (transcript : List TranscriptLine) (analysis : VideoAnalysis)
    (totalDuration segmentDuration : ℚ) (i : ℕ) : TimelineSegment :=
  let startTime : ℚ := (i : ℚ) * segmentDuration
  let endTime : ℚ := min (((i : ℚ) + 1) * segmentDuration) totalDuration
  let segmentLines := transcript.filter fun line =>
    decide (startTime ≤ line.start) && decide (line.start < endTime)
  let segmentText := String.intercalate " " (segmentLines.map TranscriptLine.text)
  let keywords := extractKeywords segmentText
  let fallbackTopic :=
    if 0 < keywords.length then String.intercalate " & " (keywords.take 2)
    else "Part " ++ toString (i + 1)
  let topic :=
    match (analysis.mainTopics.get? i).map MainTopic.name with
    | some nm => if nm = "" then fallbackTopic else nm
    | none => fallbackTopic
  { topic := topic
    description := "Discussion from " ++ formatTime startTime ++ " to " ++ formatTime endTime
    startTime := ⌊startTime⌋
    endTime := ⌊endTime⌋
    keywords := keywords
    color := colors.getD (i % colors.length) "" }

/-- Policy A `generateTimelineSegments` (`src/server/transcription.ts`,
lines 196–252): duration-driven segmentation. -/
def generateTimelineSegments (transcript : List TranscriptLine)
    (analysis : VideoAnalysis) : List TimelineSegment :=
  if transcript.length = 0 then []
  else
    let totalDuration := (transcript.getLastD default).«end»
    if totalDuration ≤ 0 then
      [{ topic := "Video Content"
         description := "Full video"
         startTime := 0
         endTime := 0
         keywords := extractKeywords (String.intercalate " " (transcript.map TranscriptLine.text))
         color := colors.getD 0 "" }]
    else
      let targetSegmentDuration := max 120 (totalDuration / 5)
      let numSegments := (max 1 (min 5 ⌈totalDuration / targetSegmentDuration⌉)).toNat
      let segmentDuration := totalDuration / (numSegments : ℚ)
      (List.range numSegments).map
        (policyASegment transcript analysis totalDuration segmentDuration)

/-- The loop body of Policy B `generateTimelineSegments` at index `i`. -/
def policyBSegment (transcript : List TranscriptLine) (analysis : VideoAnalysis)
    (totalDuration segmentDuration : ℚ) (i : ℕ) : TimelineSegment :=
  let startTime : ℚ := (i : ℚ) * segmentDuration
  let endTime : ℚ := min (((i : ℚ) + 1) * segmentDuration) totalDuration
  let segmentLines := transcript.filter fun line =>
    decide (startTime ≤ line.start) && decide (line.start < endTime)
  let segmentText := String.intercalate " " (segmentLines.map TranscriptLine.text)
  let keywords := extractKeywords segmentText
  let topic :=
    match (analysis.mainTopics.get? i).map MainTopic.name with
    | some nm => if nm = "" then "Segment " ++ toString (i + 1) else nm
    | none => "Segment " ++ toString (i + 1)
  { topic := topic
    description := "Discussion from " ++ formatTime startTime ++ " to " ++ formatTime endTime
    startTime := ⌊startTime⌋
    endTime := ⌊endTime⌋
    keywords := keywords
    color := colors.getD (i % colors.length) "" }

/-- Policy B `generateTimelineSegments` (the analysis-driven variant, second
copy in `src/server/transcription.ts`, lines 490–527): the segment count is
`Math.min(analysis.mainTopics.length, 5) || 3`, with no guard on non-positive
total duration. -/
def generateTimelineSegmentsB (transcript : List TranscriptLine)
    (analysis : VideoAnalysis) : List TimelineSegment :=
  if transcript.length = 0 then []
  else
    let totalDuration := (transcript.getLastD default).«end»
    let numTopics :=
      if min analysis.mainTopics.length 5 = 0 then 3 else min analysis.mainTopics.length 5
    let segmentDuration := totalDuration / (numTopics : ℚ)
    (List.range numTopics).map
      (policyBSegment transcript analysis totalDuration segmentDuration)

/-- The all-empty `VideoAnalysis` (as produced by the skipped-analysis path). -/
def emptyAnalysis : VideoAnalysis :=
  { summary := ""
    highlights := []
    mainTopics := []
    partialTopics := []
    speakers := []
    decisions := [] }

/-- The Policy A segment count, `clamp(ceil(totalDuration / targetSegmentDuration), 1, 5)`
with `targetSegmentDuration = max(120, totalDuration / 5)`. -/
def policyACount (T : ℚ) : ℕ :=
  (max 1 (min 5 ⌈T / max 120 (T / 5)⌉)).toNat

/-- The Policy A per-segment width, `totalDuration / segmentCount`. -/
def policyAWidth (T : ℚ) : ℚ :=
  T / (policyACount T : ℚ)

/-! ## Helper lemmas -/

theorem floor_div_sixty (q : ℚ) : ⌊q / 60⌋ = ⌊q⌋ / 60 := by
  rw [Int.floor_eq_iff]
  constructor
  · rw [le_div_iff₀ (by norm_num : (0:ℚ) < 60)]
    have h1 : ⌊q⌋ / 60 * 60 ≤ ⌊q⌋ := by omega
    calc ((⌊q⌋ / 60 : ℤ) : ℚ) * 60 = ((⌊q⌋ / 60 * 60 : ℤ) : ℚ) := by push_cast; ring
      _ ≤ (⌊q⌋ : ℚ) := by exact_mod_cast h1
      _ ≤ q := Int.floor_le q
  · rw [div_lt_iff₀ (by norm_num : (0:ℚ) < 60)]
    have h2 : ⌊q⌋ + 1 ≤ (⌊q⌋ / 60 + 1) * 60 := by omega
    calc q < (⌊q⌋ : ℚ) + 1 := Int.lt_floor_add_one q
      _ ≤ (((⌊q⌋ / 60 + 1) * 60 : ℤ) : ℚ) := by exact_mod_cast h2
      _ = (((⌊q⌋ / 60 : ℤ) : ℚ) + 1) * 60 := by push_cast; ring

theorem floor_jsMod_sixty (q : ℚ) (hq : 0 ≤ q) : ⌊jsMod q 60⌋ = ⌊q⌋ % 60 := by
  unfold jsMod ratTrunc
  rw [if_pos (div_nonneg hq (by norm_num)), floor_div_sixty]
  have hrw : q - 60 * ((⌊q⌋ / 60 : ℤ) : ℚ) = q - ((60 * (⌊q⌋ / 60) : ℤ) : ℚ) := by
    push_cast; ring
  rw [hrw, Int.floor_sub_int]
  omega

theorem mem_map_fst_bump {m : List (String × ℕ)} {w x : String} :
    x ∈ (bump m w).map Prod.fst ↔ x ∈ m.map Prod.fst ∨ x = w := by
  induction m with
  | nil => simp [bump]
  | cons e rest ih =>
    obtain ⟨k, n⟩ := e
    by_cases h : k = w
    · subst h
      simp [bump]
      tauto
    · simp [bump, h, ih]
      tauto

theorem mem_keys_countWords (ws : List String) (x : String) :
    x ∈ (countWords ws).map Prod.fst ↔ x ∈ ws := by
  suffices h : ∀ acc : List (String × ℕ),
      x ∈ (ws.foldl bump acc).map Prod.fst ↔ x ∈ acc.map Prod.fst ∨ x ∈ ws by
    simpa [countWords] using h []
  induction ws with
  | nil => intro acc; simp
  | cons w ws ih =>
    intro acc
    rw [List.foldl_cons, ih (bump acc w), mem_map_fst_bump, List.mem_cons]
    tauto

theorem policyACount_pos (T : ℚ) : 0 < policyACount T := by
  unfold policyACount
  have h1 : (1:ℤ) ≤ max 1 (min 5 ⌈T / max 120 (T / 5)⌉) := le_max_left _ _
  omega

theorem policyACount_le_five (T : ℚ) : policyACount T ≤ 5 := by
  unfold policyACount
  have h5 : max 1 (min 5 ⌈T / max 120 (T / 5)⌉) ≤ 5 :=
    max_le (by norm_num) (min_le_left _ _)
  omega

theorem policyACount_cast_ne_zero (T : ℚ) : ((policyACount T : ℕ) : ℚ) ≠ 0 := by
  have := policyACount_pos T
  positivity

theorem policyAWidth_pos (T : ℚ) (hT : 0 < T) : 0 < policyAWidth T := by
  unfold policyAWidth
  have := policyACount_pos T
  positivity

theorem policyACount_mul_width (T : ℚ) :
    (policyACount T : ℚ) * policyAWidth T = T := by
  unfold policyAWidth
  rw [mul_comm, div_mul_cancel₀ _ (policyACount_cast_ne_zero T)]

theorem policyA_mul_width_le (T : ℚ) (hT : 0 < T) {i : ℕ}
    (hi : i ≤ policyACount T) : (i : ℚ) * policyAWidth T ≤ T := by
  calc (i : ℚ) * policyAWidth T
      ≤ (policyACount T : ℚ) * policyAWidth T :=
        mul_le_mul_of_nonneg_right (Nat.cast_le.mpr hi) (policyAWidth_pos T hT).le
    _ = T := policyACount_mul_width T

/-- Unfolding of Policy A on the main (positive-duration) branch. -/
theorem generateTimelineSegments_pos (transcript : List TranscriptLine)
    (analysis : VideoAnalysis) (hne : transcript.length ≠ 0)
    (hpos : 0 < (transcript.getLastD default).«end») :
    generateTimelineSegments transcript analysis =
      (List.range (policyACount (transcript.getLastD default).«end»)).map
        (policyASegment transcript analysis (transcript.getLastD default).«end»
          (policyAWidth (transcript.getLastD default).«end»)) := by
  simp only [generateTimelineSegments, if_neg hne, if_neg (not_le.mpr hpos)]
  rfl

theorem policyASegment_startTime (t : List TranscriptLine) (a : VideoAnalysis)
    (T d : ℚ) (i : ℕ) : (policyASegment t a T d i).startTime = ⌊(i : ℚ) * d⌋ := rfl

theorem policyASegment_endTime (t : List TranscriptLine) (a : VideoAnalysis)
    (T d : ℚ) (i : ℕ) :
    (policyASegment t a T d i).endTime = ⌊min (((i : ℚ) + 1) * d) T⌋ := rfl

theorem policyASegment_keywords (t : List TranscriptLine) (a : VideoAnalysis)
    (T d : ℚ) (i : ℕ) :
    (policyASegment t a T d i).keywords =
      extractKeywords (String.intercalate " "
        ((t.filter fun line =>
            decide ((i : ℚ) * d ≤ line.start) &&
            decide (line.start < min (((i : ℚ) + 1) * d) T)).map TranscriptLine.text)) := rfl

theorem keys_bump_of_mem {m : List (String × ℕ)} {w : String}
    (h : w ∈ m.map Prod.fst) : (bump m w).map Prod.fst = m.map Prod.fst := by
  induction m with
  | nil => simp at h
  | cons e rest ih =>
    obtain ⟨k, n⟩ := e
    by_cases hkw : k = w
    · subst hkw
      simp [bump]
    · simp only [List.map_cons, List.mem_cons] at h
      rcases h with h | h
      · exact absurd h.symm hkw
      · simp [bump, hkw, ih h]

theorem bump_of_not_mem {m : List (String × ℕ)} {w : String}
    (h : w ∉ m.map Prod.fst) : bump m w = m ++ [(w, 1)] := by
  induction m with
  | nil => simp [bump]
  | cons e rest ih =>
    obtain ⟨k, n⟩ := e
    simp only [List.map_cons, List.mem_cons] at h
    push_neg at h
    simp [bump, Ne.symm h.1, ih h.2]

theorem nodup_keys_bump {m : List (String × ℕ)} {w : String}
    (h : (m.map Prod.fst).Nodup) : ((bump m w).map Prod.fst).Nodup := by
  by_cases hmem : w ∈ m.map Prod.fst
  · rw [keys_bump_of_mem hmem]
    exact h
  · rw [bump_of_not_mem hmem, List.map_append]
    simp only [List.map_cons, List.map_nil]
    rw [List.nodup_append]
    exact ⟨h, List.nodup_singleton w, by simpa using hmem⟩

theorem nodup_keys_countWords (ws : List String) :
    ((countWords ws).map Prod.fst).Nodup := by
  suffices h : ∀ acc : List (String × ℕ), (acc.map Prod.fst).Nodup →
      ((ws.foldl bump acc).map Prod.fst).Nodup from h [] (by simp)
  induction ws with
  | nil => intro acc hacc; simpa using hacc
  | cons w ws ih =>
    intro acc hacc
    rw [List.foldl_cons]
    exact ih (bump acc w) (nodup_keys_bump hacc)

theorem mem_bump_of_ne {m : List (String × ℕ)} {w k : String} {c : ℕ}
    (hkw : k ≠ w) : (k, c) ∈ bump m w ↔ (k, c) ∈ m := by
  induction m with
  | nil => simp [bump, Prod.mk.injEq, hkw]
  | cons e rest ih =>
    obtain ⟨k2, n⟩ := e
    by_cases h2 : k2 = w
    · subst h2
      rw [bump, if_pos rfl]
      constructor
      · intro hm
        rcases List.mem_cons.mp hm with he | hr
        · rw [Prod.mk.injEq] at he
          exact absurd he.1 hkw
        · exact List.mem_cons_of_mem _ hr
      · intro hm
        rcases List.mem_cons.mp hm with he | hr
        · rw [Prod.mk.injEq] at he
          exact absurd he.1 hkw
        · exact List.mem_cons_of_mem _ hr
    · rw [bump, if_neg h2, List.mem_cons, List.mem_cons, ih]

theorem mem_bump_self {m : List (String × ℕ)} {w : String} {c : ℕ}
    (hnd : (m.map Prod.fst).Nodup) (h : (w, c) ∈ m) : (w, c + 1) ∈ bump m w := by
  induction m with
  | nil => simp at h
  | cons e rest ih =>
    obtain ⟨k, n⟩ := e
    simp only [List.map_cons, List.nodup_cons] at hnd
    rcases List.mem_cons.mp h with he | hrest
    · have hk : k = w := (congrArg Prod.fst he).symm
      subst hk
      have hn : n = c := congrArg Prod.snd he.symm
      subst hn
      simp [bump]
    · by_cases hkw : k = w
      · subst hkw
        exact absurd (List.mem_map_of_mem Prod.fst hrest) hnd.1
      · simp only [bump, if_neg hkw, List.mem_cons]
        exact Or.inr (ih hnd.2 hrest)

theorem countWords_concat (ws : List String) (w : String) :
    countWords (ws ++ [w]) = bump (countWords ws) w := by
  rw [countWords, countWords, List.foldl_append, List.foldl_cons, List.foldl_nil]

theorem count_mem_countWords (ws : List String) :
    ∀ k ∈ ws, (k, ws.count k) ∈ countWords ws := by
  induction ws using List.reverseRecOn with
  | nil => intro k hk; simp at hk
  | append_singleton ws w ih =>
    intro k hk
    rw [countWords_concat]
    by_cases hkw : k = w
    · subst hkw
      by_cases hmem : k ∈ ws
      · have h2 : (k, ws.count k + 1) ∈ bump (countWords ws) k :=
          mem_bump_self (nodup_keys_countWords ws) (ih k hmem)
        have hc : (ws ++ [k]).count k = ws.count k + 1 := by
          simp [List.count_append]
        rw [hc]
        exact h2
      · have hnk : k ∉ (countWords ws).map Prod.fst := by
          rw [mem_keys_countWords]
          exact hmem
        rw [bump_of_not_mem hnk]
        have hc : (ws ++ [k]).count k = 1 := by
          have h0 : ws.count k = 0 := by
            rw [List.count_eq_zero]
            exact hmem
          simp [List.count_append, h0]
        rw [hc]
        exact List.mem_append_right _ (by simp)
    · have hk2 : k ∈ ws := by
        rcases List.mem_append.mp hk with h | h
        · exact h
        · simp at h
          exact absurd h hkw
      have hc : (ws ++ [w]).count k = ws.count k := by
        have h0 : List.count k [w] = 0 := by
          rw [List.count_eq_zero]
          simpa using hkw
        simp [List.count_append, h0]
      rw [hc]
      exact (mem_bump_of_ne hkw).mpr (ih k hk2)

theorem entry_eq_of_nodup_keys {m : List (String × ℕ)} {k : String} {c c2 : ℕ}
    (hnd : (m.map Prod.fst).Nodup) (h1 : (k, c) ∈ m) (h2 : (k, c2) ∈ m) : c = c2 := by
  induction m with
  | nil => simp at h1
  | cons e rest ih =>
    obtain ⟨k2, n⟩ := e
    simp only [List.map_cons, List.nodup_cons] at hnd
    rcases List.mem_cons.mp h1 with he1 | hr1 <;> rcases List.mem_cons.mp h2 with he2 | hr2
    · rw [Prod.mk.injEq] at he1 he2
      rw [he1.2, he2.2]
    · have hk2 : k2 = k := (congrArg Prod.fst he1).symm
      subst hk2
      exact absurd (List.mem_map_of_mem Prod.fst hr2) hnd.1
    · have hk2 : k2 = k := (congrArg Prod.fst he2).symm
      subst hk2
      exact absurd (List.mem_map_of_mem Prod.fst hr1) hnd.1
    · exact ih hnd.2 hr1 hr2

theorem countWords_count {ws : List String} {k : String} {c : ℕ}
    (h : (k, c) ∈ countWords ws) : c = ws.count k := by
  have hkmem : k ∈ ws := (mem_keys_countWords ws k).mp (List.mem_map_of_mem Prod.fst h)
  exact entry_eq_of_nodup_keys (nodup_keys_countWords ws) h (count_mem_countWords ws k hkmem)

/-- The keys of the counting map are listed in order of first occurrence in
the token stream. -/
theorem keys_pairwise_firstIdx (ws : List String) :
    ((countWords ws).map Prod.fst).Pairwise
      (fun a b => ws.indexOf a < ws.indexOf b) := by
  induction ws using List.reverseRecOn with
  | nil => simp [countWords]
  | append_singleton ws w ih =>
    rw [countWords_concat]
    by_cases hmem : w ∈ ws
    · rw [keys_bump_of_mem ((mem_keys_countWords ws w).mpr hmem)]
      refine ih.imp_of_mem ?_
      intro a b ha hb hab
      have haw : a ∈ ws := (mem_keys_countWords ws a).mp ha
      have hbw : b ∈ ws := (mem_keys_countWords ws b).mp hb
      rw [List.indexOf_append_of_mem haw, List.indexOf_append_of_mem hbw]
      exact hab
    · have hnk : w ∉ (countWords ws).map Prod.fst := by
        rw [mem_keys_countWords]
        exact hmem
      rw [bump_of_not_mem hnk, List.map_append]
      rw [List.pairwise_append]
      refine ⟨?_, by simp, ?_⟩
      · refine ih.imp_of_mem ?_
        intro a b ha hb hab
        have haw : a ∈ ws := (mem_keys_countWords ws a).mp ha
        have hbw : b ∈ ws := (mem_keys_countWords ws b).mp hb
        rw [List.indexOf_append_of_mem haw, List.indexOf_append_of_mem hbw]
        exact hab
      · intro a ha b hb
        simp only [List.map_cons, List.map_nil, List.mem_singleton] at hb
        subst hb
        have haw : a ∈ ws := (mem_keys_countWords ws a).mp ha
        rw [List.indexOf_append_of_mem haw, List.indexOf_append_of_not_mem hmem]
        have h1 : ws.indexOf a < ws.length := List.indexOf_lt_length.mpr haw
        have h2 : List.indexOf b [b] = 0 := List.indexOf_cons_self b []
        omega

/-- Two positions of a list give a two-element sublist. -/
theorem pair_sublist_of_lt {α : Type} (l : List α) {i j : ℕ} (hij : i < j)
    (hj : j < l.length) :
    List.Sublist [l.get ⟨i, by omega⟩, l.get ⟨j, hj⟩] l := by
  have h1 : List.Sublist [l.get ⟨i, by omega⟩] (l.take (i + 1)) := by
    rw [List.singleton_sublist]
    have hlen : i < (l.take (i + 1)).length := by
      rw [List.length_take]
      omega
    have he : (l.take (i + 1)).get ⟨i, hlen⟩ = l.get ⟨i, by omega⟩ := by
      simp [List.getElem_take]
    rw [← he]
    exact List.get_mem _ _ _
  have h2 : List.Sublist [l.get ⟨j, hj⟩] (l.drop (i + 1)) := by
    rw [List.singleton_sublist]
    have hlen : j - (i + 1) < (l.drop (i + 1)).length := by
      rw [List.length_drop]
      omega
    have he : (l.drop (i + 1)).get ⟨j - (i + 1), hlen⟩ = l.get ⟨j, hj⟩ := by
      simp only [List.get_eq_getElem, List.getElem_drop]
      congr 1
      omega
    rw [← he]
    exact List.get_mem _ _ _
  have h3 := List.Sublist.append h1 h2
  rw [List.take_append_drop] at h3
  exact h3

/-- In a duplicate-free list, a two-element sublist determines the order of
first indices. -/
theorem indexOf_lt_of_pair_sublist {α : Type} [DecidableEq α] {S : List α}
    {a b : α} (hnd : S.Nodup) (h : List.Sublist [a, b] S) :
    S.indexOf a < S.indexOf b := by
  induction S with
  | nil => exact absurd (List.eq_nil_of_sublist_nil h) (by simp)
  | cons x S ih =>
    rw [List.nodup_cons] at hnd
    obtain ⟨hx, hndS⟩ := hnd
    cases h with
    | cons _ h2 =>
      have haS : a ∈ S := h2.subset (by simp)
      have hbS : b ∈ S := h2.subset (by simp)
      have hxa : x ≠ a := fun he => hx (he ▸ haS)
      have hxb : x ≠ b := fun he => hx (he ▸ hbS)
      rw [List.indexOf_cons_ne _ hxa, List.indexOf_cons_ne _ hxb]
      have := ih hndS h2
      omega
    | cons₂ _ h2 =>
      have hbS : b ∈ S := List.singleton_sublist.mp h2
      have hab : a ≠ b := fun he => hx (he ▸ hbS)
      rw [List.indexOf_cons_self, List.indexOf_cons_ne _ hab]
      omega

theorem countWords_entry_snd {ws : List String} {p : String × ℕ}
    (h : p ∈ countWords ws) : p.2 = ws.count p.1 := by
  obtain ⟨k, c⟩ := p
  exact countWords_count h

theorem pair_sublist_of_indexOf_lt {α : Type} [DecidableEq α] {l : List α}
    {a b : α} (ha : a ∈ l) (hb : b ∈ l) (hlt : l.indexOf a < l.indexOf b) :
    List.Sublist [a, b] l := by
  have ht1 : l.indexOf a < l.length := List.indexOf_lt_length.mpr ha
  have ht2 : l.indexOf b < l.length := List.indexOf_lt_length.mpr hb
  have hp := pair_sublist_of_lt l hlt ht2
  rw [show [a, b] = [l.get ⟨l.indexOf a, ht1⟩, l.get ⟨l.indexOf b, ht2⟩] from by
    rw [List.indexOf_get ht1, List.indexOf_get ht2]]
  exact hp

/-- Any two distinct members of a list occur in one of the two orders. -/
theorem pair_sublist_or {α : Type} [DecidableEq α] {l : List α} {a b : α}
    (ha : a ∈ l) (hb : b ∈ l) (hab : a ≠ b) :
    List.Sublist [a, b] l ∨ List.Sublist [b, a] l := by
  have ht1 : l.indexOf a < l.length := List.indexOf_lt_length.mpr ha
  have ht2 : l.indexOf b < l.length := List.indexOf_lt_length.mpr hb
  have htne : l.indexOf a ≠ l.indexOf b := by
    intro he
    apply hab
    have hg : l.get ⟨l.indexOf a, ht1⟩ = l.get ⟨l.indexOf b, ht2⟩ := by
      congr 1
      exact Fin.ext he
    rwa [List.indexOf_get ht1, List.indexOf_get ht2] at hg
  rcases Nat.lt_or_ge (l.indexOf a) (l.indexOf b) with hlt | hge
  · exact Or.inl (pair_sublist_of_indexOf_lt ha hb hlt)
  · exact Or.inr (pair_sublist_of_indexOf_lt hb ha (lt_of_le_of_ne hge htne.symm))

/-- In a duplicate-free list, a two-element sublist of positioned elements
orders the positions. -/
theorem getElem_lt_of_pair_sublist {α : Type} [DecidableEq α] {S : List α}
    (hSnd : S.Nodup) {i j : ℕ} (hi : i < S.length) (hj : j < S.length)
    (h : List.Sublist [S.get ⟨i, hi⟩, S.get ⟨j, hj⟩] S) : i < j := by
  have h2 := indexOf_lt_of_pair_sublist hSnd h
  rw [List.get_eq_getElem, List.get_eq_getElem] at h2
  rwa [List.indexOf_getElem hSnd i hi, List.indexOf_getElem hSnd j hj] at h2

/-- The topic field of a Policy A segment, by definitional unfolding. -/
theorem policyASegment_topic_def (t : List TranscriptLine) (a : VideoAnalysis)
    (T d : ℚ) (i : ℕ) :
    (policyASegment t a T d i).topic =
      match (a.mainTopics.get? i).map MainTopic.name with
      | some nm =>
        if nm = "" then
          if 0 < (policyASegment t a T d i).keywords.length then
            String.intercalate " & " ((policyASegment t a T d i).keywords.take 2)
          else "Part " ++ toString (i + 1)
        else nm
      | none =>
        if 0 < (policyASegment t a T d i).keywords.length then
          String.intercalate " & " ((policyASegment t a T d i).keywords.take 2)
        else "Part " ++ toString (i + 1) := rfl

/-! ## Claim theorems -/

/-- C3: for every analysis value, `generateTimelineSegments` applied to the
empty transcript returns the empty sequence; the analysis content has no
influence on this result. -/
theorem generateTimelineSegments_nil (analysis : VideoAnalysis) :
    generateTimelineSegments [] analysis = [] := rfl

/-- C4: for every non-empty transcript whose last line's end time is `≤ 0`,
Policy A returns exactly one segment: topic `"Video Content"`, description
`"Full video"`, spanning `[0, 0]`, keywords extracted from the space-joined
transcript texts, and the first palette color. -/
theorem generateTimelineSegments_nonpos (transcript : List TranscriptLine)
    (analysis : VideoAnalysis) (hne : transcript.length ≠ 0)
    (hnp : (transcript.getLastD default).«end» ≤ 0) :
    generateTimelineSegments transcript analysis =
      [{ topic := "Video Content"
         description := "Full video"
         startTime := 0
         endTime := 0
         keywords := extractKeywords (String.intercalate " " (transcript.map TranscriptLine.text))
         color := colors.getD 0 "" }] := by
  simp only [generateTimelineSegments, if_neg hne, if_pos hnp]

/-- Witness for C4 at the transcript `[{text := "x", start := 0, end := 0}]`. -/
theorem generateTimelineSegments_nonpos_witness :
    ([⟨"SPEAKER_00", "x", 0, 0, 0⟩] : List TranscriptLine).length ≠ 0 ∧
    (([⟨"SPEAKER_00", "x", 0, 0, 0⟩] : List TranscriptLine).getLastD default).«end» ≤ 0 ∧
    generateTimelineSegments [⟨"SPEAKER_00", "x", 0, 0, 0⟩] emptyAnalysis =
      [{ topic := "Video Content"
         description := "Full video"
         startTime := 0
         endTime := 0
         keywords := extractKeywords (String.intercalate " "
           (([⟨"SPEAKER_00", "x", 0, 0, 0⟩] : List TranscriptLine).map TranscriptLine.text))
         color := colors.getD 0 "" }] :=
  ⟨by decide, by decide,
    generateTimelineSegments_nonpos [⟨"SPEAKER_00", "x", 0, 0, 0⟩] emptyAnalysis
      (by decide) (by decide)⟩

/-- C7: for every non-negative number of seconds, `formatTime` returns the
minutes (truncated quotient by 60, no leading zero, not capped), a colon, and
the truncated remainder mod 60 zero-padded to two digits; in particular
`formatTime 125 = "2:05"`, `formatTime 59 = "0:59"`, `formatTime 0 = "0:00"`. -/
theorem formatTime_spec (q : ℚ) (hq : 0 ≤ q) :
    formatTime q = toString (⌊q⌋ / 60) ++ ":" ++ padStart2 (toString (⌊q⌋ % 60)) ∧
    formatTime 125 = "2:05" ∧ formatTime 59 = "0:59" ∧ formatTime 0 = "0:00" := by
  refine ⟨?_, by decide, by decide, by decide⟩
  unfold formatTime
  rw [floor_div_sixty, floor_jsMod_sixty q hq]

/-- Witness for C7 at `q = 125`. -/
theorem formatTime_spec_witness :
    (0:ℚ) ≤ 125 ∧
    formatTime 125 =
      toString (⌊(125:ℚ)⌋ / 60) ++ ":" ++ padStart2 (toString (⌊(125:ℚ)⌋ % 60)) :=
  ⟨by norm_num, (formatTime_spec 125 (by norm_num)).1⟩

/-- C6: `extractKeywords` returns at most 5 entries, every returned entry has
length strictly greater than 4, and `extractKeywords ""` is empty. -/
theorem extractKeywords_spec (text : String) :
    (extractKeywords text).length ≤ 5 ∧
    (∀ w ∈ extractKeywords text, 4 < w.length) ∧
    extractKeywords "" = [] := by
  refine ⟨?_, ?_, by decide⟩
  · unfold extractKeywords
    simp only [List.length_map, List.length_take]
    omega
  · intro w hw
    unfold extractKeywords at hw
    simp only [List.mem_map] at hw
    obtain ⟨e, he, rfl⟩ := hw
    have he2 : e ∈ List.insertionSort countGE (countWords (jsWords text)) :=
      List.mem_of_mem_take he
    rw [List.mem_insertionSort] at he2
    have hk : e.1 ∈ (countWords (jsWords text)).map Prod.fst :=
      List.mem_map_of_mem _ he2
    rw [mem_keys_countWords] at hk
    unfold jsWords at hk
    rw [List.mem_filter] at hk
    simpa using hk.2

/-- C2: on the main branch, Policy A produces
`clamp(ceil(T / max(120, T/5)), 1, 5)` segments of equal width `T / count`,
segment `i` spanning `[floor(i * width), floor(min((i+1) * width, T))]`; in
particular the single-line transcript `{text:"hello world testing", start:0,
end:10}` yields exactly one segment spanning `[0, 10]`. -/
theorem policyA_formula (transcript : List TranscriptLine) (analysis : VideoAnalysis)
    (hne : transcript.length ≠ 0)
    (hpos : 0 < (transcript.getLastD default).«end») :
    (generateTimelineSegments transcript analysis).length =
      (max 1 (min 5 ⌈(transcript.getLastD default).«end» /
        max 120 ((transcript.getLastD default).«end» / 5)⌉)).toNat ∧
    (∀ i, ∀ h : i < (generateTimelineSegments transcript analysis).length,
      ((generateTimelineSegments transcript analysis).get ⟨i, h⟩).startTime =
        ⌊(i : ℚ) * ((transcript.getLastD default).«end» /
          ((generateTimelineSegments transcript analysis).length : ℚ))⌋ ∧
      ((generateTimelineSegments transcript analysis).get ⟨i, h⟩).endTime =
        ⌊min (((i : ℚ) + 1) * ((transcript.getLastD default).«end» /
            ((generateTimelineSegments transcript analysis).length : ℚ)))
          (transcript.getLastD default).«end»⌋) ∧
    (generateTimelineSegments [⟨"SPEAKER_00", "hello world testing", 0, 10, 0⟩]
        emptyAnalysis).map (fun s => (s.startTime, s.endTime)) = [(0, 10)] := by
  have hgen := generateTimelineSegments_pos transcript analysis hne hpos
  have hlen : (generateTimelineSegments transcript analysis).length =
      policyACount (transcript.getLastD default).«end» := by
    rw [hgen, List.length_map, List.length_range]
  refine ⟨by rw [hlen]; rfl, ?_, by decide⟩
  intro i h
  have hget : (generateTimelineSegments transcript analysis).get ⟨i, h⟩ =
      policyASegment transcript analysis (transcript.getLastD default).«end»
        (policyAWidth (transcript.getLastD default).«end») i := by
    simp only [hgen, List.get_eq_getElem, List.getElem_map, List.getElem_range]
  rw [hget, hlen, policyASegment_startTime, policyASegment_endTime]
  exact ⟨rfl, rfl⟩

/-- Witness for C2 at the single-line transcript of the claim. -/
theorem policyA_formula_witness :
    ([⟨"SPEAKER_00", "hello world testing", 0, 10, 0⟩] : List TranscriptLine).length ≠ 0 ∧
    (0:ℚ) < (([⟨"SPEAKER_00", "hello world testing", 0, 10, 0⟩] :
      List TranscriptLine).getLastD default).«end» ∧
    (generateTimelineSegments [⟨"SPEAKER_00", "hello world testing", 0, 10, 0⟩]
        emptyAnalysis).map (fun s => (s.startTime, s.endTime)) = [(0, 10)] :=
  ⟨by decide, by decide,
    (policyA_formula [⟨"SPEAKER_00", "hello world testing", 0, 10, 0⟩] emptyAnalysis
      (by decide) (by decide)).2.2⟩

/-- C5: for every Policy A segment index `i` (main branch), the topic follows
the first-match fallback chain: `analysis.mainTopics[i].name` when present with
a non-empty name; otherwise the first two extracted keywords joined with
`" & "` when any keyword was extracted; otherwise `"Part {i+1}"`. -/
theorem policyA_topicChain (transcript : List TranscriptLine) (analysis : VideoAnalysis)
    (hne : transcript.length ≠ 0)
    (hpos : 0 < (transcript.getLastD default).«end») :
    ∀ i, ∀ h : i < (generateTimelineSegments transcript analysis).length,
      (∀ tp : MainTopic, analysis.mainTopics.get? i = some tp → tp.name ≠ "" →
        ((generateTimelineSegments transcript analysis).get ⟨i, h⟩).topic = tp.name) ∧
      ((analysis.mainTopics.get? i).map MainTopic.name = none ∨
          (analysis.mainTopics.get? i).map MainTopic.name = some "" →
        (((generateTimelineSegments transcript analysis).get ⟨i, h⟩).keywords ≠ [] →
          ((generateTimelineSegments transcript analysis).get ⟨i, h⟩).topic =
            String.intercalate " & "
              (((generateTimelineSegments transcript analysis).get ⟨i, h⟩).keywords.take 2)) ∧
        (((generateTimelineSegments transcript analysis).get ⟨i, h⟩).keywords = [] →
          ((generateTimelineSegments transcript analysis).get ⟨i, h⟩).topic =
            "Part " ++ toString (i + 1))) := by
  intro i h
  have hgen := generateTimelineSegments_pos transcript analysis hne hpos
  have hget : (generateTimelineSegments transcript analysis).get ⟨i, h⟩ =
      policyASegment transcript analysis (transcript.getLastD default).«end»
        (policyAWidth (transcript.getLastD default).«end») i := by
    simp only [hgen, List.get_eq_getElem, List.getElem_map, List.getElem_range]
  rw [hget]
  constructor
  · intro tp hmt hname
    rw [policyASegment_topic_def]
    simp only [hmt, Option.map_some']
    rw [if_neg hname]
  · intro hfb
    constructor
    · intro hk
      rw [policyASegment_topic_def]
      rcases hfb with hn | he
      · simp only [hn]
        rw [if_pos (List.length_pos.mpr hk)]
      · simp only [he, if_true]
        rw [if_pos (List.length_pos.mpr hk)]
    · intro hk
      rw [policyASegment_topic_def]
      rcases hfb with hn | he
      · simp only [hn]
        rw [if_neg (by rw [hk]; decide)]
      · simp only [he, if_true]
        rw [if_neg (by rw [hk]; decide)]

/-- Witness for C5: with empty `mainTopics`, segment 0 of the two-line
transcript gets its top-2-keyword topic and segment 1 gets `"Part 2"`. -/
theorem policyA_topicChain_witness :
    (([⟨"SPEAKER_00", "apples apples", 0, 10, 0⟩,
        ⟨"SPEAKER_01", "bananas bananas", 74, 200, 74⟩] :
        List TranscriptLine).length ≠ 0) ∧
    ((generateTimelineSegments
        [⟨"SPEAKER_00", "apples apples", 0, 10, 0⟩,
          ⟨"SPEAKER_01", "bananas bananas", 74, 200, 74⟩] emptyAnalysis).get
      ⟨0, by decide⟩).topic = String.intercalate " & "
        (((generateTimelineSegments
            [⟨"SPEAKER_00", "apples apples", 0, 10, 0⟩,
              ⟨"SPEAKER_01", "bananas bananas", 74, 200, 74⟩] emptyAnalysis).get
          ⟨0, by decide⟩).keywords.take 2) :=
  ⟨by decide,
    ((policyA_topicChain
        [⟨"SPEAKER_00", "apples apples", 0, 10, 0⟩,
          ⟨"SPEAKER_01", "bananas bananas", 74, 200, 74⟩] emptyAnalysis
        (by decide) (by decide) 0 (by decide)).2 (Or.inl rfl)).1 (by decide)⟩

/-- C8: a transcript line is selected for segment `i` exactly when its start
time lies in `[segmentStart, segmentEnd)` (its end time is ignored), and the
segment's keywords are extracted from the space-joined texts of the selected
lines; concretely, a line starting at 74 but ending at 200 is attributed
entirely to the first of two 100-second segments. -/
theorem policyA_lineSelection (transcript : List TranscriptLine) (analysis : VideoAnalysis)
    (hne : transcript.length ≠ 0)
    (hpos : 0 < (transcript.getLastD default).«end») :
    (∀ i, ∀ h : i < (generateTimelineSegments transcript analysis).length,
      ((generateTimelineSegments transcript analysis).get ⟨i, h⟩).keywords =
        extractKeywords (String.intercalate " "
          ((transcript.filter fun line =>
              decide ((i : ℚ) * ((transcript.getLastD default).«end» /
                ((generateTimelineSegments transcript analysis).length : ℚ)) ≤ line.start) &&
              decide (line.start < min (((i : ℚ) + 1) *
                  ((transcript.getLastD default).«end» /
                    ((generateTimelineSegments transcript analysis).length : ℚ)))
                (transcript.getLastD default).«end»)).map TranscriptLine.text))) ∧
    (generateTimelineSegments
        [⟨"SPEAKER_00", "apples apples", 0, 10, 0⟩,
          ⟨"SPEAKER_01", "bananas bananas", 74, 200, 74⟩] emptyAnalysis).map
      TimelineSegment.keywords = [["apples", "bananas"], []] := by
  have hgen := generateTimelineSegments_pos transcript analysis hne hpos
  have hlen : (generateTimelineSegments transcript analysis).length =
      policyACount (transcript.getLastD default).«end» := by
    rw [hgen, List.length_map, List.length_range]
  refine ⟨?_, by decide⟩
  intro i h
  have hget : (generateTimelineSegments transcript analysis).get ⟨i, h⟩ =
      policyASegment transcript analysis (transcript.getLastD default).«end»
        (policyAWidth (transcript.getLastD default).«end») i := by
    simp only [hgen, List.get_eq_getElem, List.getElem_map, List.getElem_range]
  rw [hget, hlen, policyASegment_keywords]
  rfl

/-- Witness for C8 at the two-line transcript with a boundary-crossing line. -/
theorem policyA_lineSelection_witness :
    (([⟨"SPEAKER_00", "apples apples", 0, 10, 0⟩,
        ⟨"SPEAKER_01", "bananas bananas", 74, 200, 74⟩] :
        List TranscriptLine).length ≠ 0) ∧
    (generateTimelineSegments
        [⟨"SPEAKER_00", "apples apples", 0, 10, 0⟩,
          ⟨"SPEAKER_01", "bananas bananas", 74, 200, 74⟩] emptyAnalysis).map
      TimelineSegment.keywords = [["apples", "bananas"], []] :=
  ⟨by decide,
    (policyA_lineSelection
        [⟨"SPEAKER_00", "apples apples", 0, 10, 0⟩,
          ⟨"SPEAKER_01", "bananas bananas", 74, 200, 74⟩] emptyAnalysis
        (by decide) (by decide)).2⟩

/-- C1: for every non-empty transcript with positive total duration, Policy A
segments fully cover `[0, floor(totalDuration)]` with no gaps and no overlaps:
between 1 and 5 segments, the first `startTime` is 0, the last `endTime` is
`floor(totalDuration)`, each segment is ordered, and each segment's
`startTime` equals the previous segment's `endTime`. -/
theorem policyA_cover (transcript : List TranscriptLine) (analysis : VideoAnalysis)
    (hne : transcript.length ≠ 0)
    (hpos : 0 < (transcript.getLastD default).«end») :
    ∃ s, s = generateTimelineSegments transcript analysis ∧
      1 ≤ s.length ∧ s.length ≤ 5 ∧
      (∀ h : 0 < s.length, (s.get ⟨0, h⟩).startTime = 0) ∧
      (∀ h : 0 < s.length,
        (s.get ⟨s.length - 1, by omega⟩).endTime = ⌊(transcript.getLastD default).«end»⌋) ∧
      (∀ i, ∀ h : i < s.length, (s.get ⟨i, h⟩).startTime ≤ (s.get ⟨i, h⟩).endTime) ∧
      (∀ i, ∀ h : i + 1 < s.length,
        (s.get ⟨i + 1, h⟩).startTime = (s.get ⟨i, by omega⟩).endTime) := by
  have hT := hpos
  set T := (transcript.getLastD default).«end» with hTdef
  set n := policyACount T with hndef
  set d := policyAWidth T with hddef
  have hn1 : 0 < n := policyACount_pos T
  have hn5 : n ≤ 5 := policyACount_le_five T
  have hd : 0 < d := policyAWidth_pos T hT
  have hnd : (n : ℚ) * d = T := policyACount_mul_width T
  refine ⟨(List.range n).map (policyASegment transcript analysis T d),
    (generateTimelineSegments_pos transcript analysis hne hpos).symm, ?_, ?_, ?_, ?_, ?_, ?_⟩
  · simpa using hn1
  · simpa using hn5
  · intro h
    simp only [List.get_eq_getElem, List.getElem_map, List.getElem_range,
      policyASegment_startTime]
    norm_num
  · intro h
    simp only [List.length_map, List.length_range] at h ⊢
    simp only [List.get_eq_getElem, List.getElem_map, List.getElem_range,
      policyASegment_endTime]
    have hcast : ((n - 1 : ℕ) : ℚ) + 1 = (n : ℚ) := by
      rw [Nat.cast_sub hn1]
      ring
    rw [hcast, hnd, min_self]
  · intro i h
    simp only [List.length_map, List.length_range] at h
    simp only [List.get_eq_getElem, List.getElem_map, List.getElem_range,
      policyASegment_startTime, policyASegment_endTime]
    apply Int.floor_le_floor
    refine le_min ?_ ?_
    · have : (i : ℚ) ≤ (i : ℚ) + 1 := by linarith
      exact mul_le_mul_of_nonneg_right this hd.le
    · exact policyA_mul_width_le T hT (le_of_lt h)
  · intro i h
    simp only [List.length_map, List.length_range] at h
    simp only [List.get_eq_getElem, List.getElem_map, List.getElem_range,
      policyASegment_startTime, policyASegment_endTime]
    have hle : ((i : ℚ) + 1) * d ≤ T := by
      have h1 : ((i + 1 : ℕ) : ℚ) * d ≤ T :=
        policyA_mul_width_le T hT (by omega)
      push_cast at h1
      exact h1
    rw [min_eq_left hle]
    push_cast
    rfl

/-- Witness for C1: segment-count bounds at a concrete single-line transcript. -/
theorem policyA_cover_witness :
    1 ≤ (generateTimelineSegments
        [⟨"SPEAKER_00", "hello world testing", 0, 10, 0⟩] emptyAnalysis).length ∧
    (generateTimelineSegments
        [⟨"SPEAKER_00", "hello world testing", 0, 10, 0⟩] emptyAnalysis).length ≤ 5 := by
  obtain ⟨s, hs, h1, h5, -, -, -, -⟩ :=
    policyA_cover [⟨"SPEAKER_00", "hello world testing", 0, 10, 0⟩] emptyAnalysis
      (by decide) (by decide)
  rw [hs] at h1 h5
  exact ⟨h1, h5⟩

/-- A Policy B loop body at total duration 0 and width 0, when the analysis
has no main topics: a degenerate `[0, 0]` segment named `"Segment {i+1}"`. -/
theorem policyBSegment_zero (t : List TranscriptLine) (a : VideoAnalysis)
    (hmt : a.mainTopics = []) (i : ℕ) :
    policyBSegment t a 0 0 i =
      { topic := "Segment " ++ toString (i + 1)
        description := "Discussion from 0:00 to 0:00"
        startTime := 0
        endTime := 0
        keywords := []
        color := colors.getD (i % 5) "" } := by
  unfold policyBSegment
  have hfmt : formatTime 0 = "0:00" := by decide
  have hfil : (t.filter fun line =>
      decide ((0:ℚ) ≤ line.start) && decide (line.start < 0)) = [] := by
    rw [List.filter_eq_nil_iff]
    intro line hline
    simp only [Bool.and_eq_true, decide_eq_true_eq, not_and, not_lt]
    exact fun h => h
  simp only [mul_zero, min_self, hmt, hfmt, hfil]
  rfl

/-- C10: Policy B, on a non-empty transcript whose last line ends at 0 and an
analysis with no main topics, returns exactly 3 degenerate segments
`"Segment 1"`..`"Segment 3"` spanning `[0, 0]` with description
`"Discussion from 0:00 to 0:00"` — it has no non-positive-duration guard and
never produces the single `"Video Content"` segment. -/
theorem policyB_zeroDuration (transcript : List TranscriptLine) (analysis : VideoAnalysis)
    (hne : transcript.length ≠ 0)
    (hT : (transcript.getLastD default).«end» = 0)
    (hmt : analysis.mainTopics = []) :
    generateTimelineSegmentsB transcript analysis =
      [{ topic := "Segment 1"
         description := "Discussion from 0:00 to 0:00"
         startTime := 0
         endTime := 0
         keywords := []
         color := colors.getD 0 "" },
       { topic := "Segment 2"
         description := "Discussion from 0:00 to 0:00"
         startTime := 0
         endTime := 0
         keywords := []
         color := colors.getD 1 "" },
       { topic := "Segment 3"
         description := "Discussion from 0:00 to 0:00"
         startTime := 0
         endTime := 0
         keywords := []
         color := colors.getD 2 "" }] := by
  have h3 : generateTimelineSegmentsB transcript analysis =
      (List.range 3).map (policyBSegment transcript analysis 0 0) := by
    simp only [generateTimelineSegmentsB, if_neg hne, hmt, hT, List.length_nil]
    norm_num
  rw [h3]
  have hr : List.range 3 = [0, 1, 2] := rfl
  rw [hr, List.map_cons, List.map_cons, List.map_cons, List.map_nil,
    policyBSegment_zero transcript analysis hmt 0,
    policyBSegment_zero transcript analysis hmt 1,
    policyBSegment_zero transcript analysis hmt 2]
  decide

/-- Witness for C10 at the transcript `[{text := "x", start := 0, end := 0}]`. -/
theorem policyB_zeroDuration_witness :
    ([⟨"SPEAKER_00", "x", 0, 0, 0⟩] : List TranscriptLine).length ≠ 0 ∧
    (generateTimelineSegmentsB [⟨"SPEAKER_00", "x", 0, 0, 0⟩] emptyAnalysis).map
      (fun s => (s.topic, s.description, s.startTime, s.endTime)) =
      [("Segment 1", "Discussion from 0:00 to 0:00", 0, 0),
       ("Segment 2", "Discussion from 0:00 to 0:00", 0, 0),
       ("Segment 3", "Discussion from 0:00 to 0:00", 0, 0)] := by
  refine ⟨by decide, ?_⟩
  rw [policyB_zeroDuration [⟨"SPEAKER_00", "x", 0, 0, 0⟩] emptyAnalysis
    (by decide) (by decide) rfl]
  rfl

/-- C9: for every input string, when two distinct qualifying tokens have equal
occurrence counts, `extractKeywords` orders them by first occurrence in the
token stream: the frequency sort is stable over the counting map's insertion
order, so the output is fully determined by the input text. -/
theorem extractKeywords_tiebreak (text : String) (i j : ℕ)
    (hi : i < (extractKeywords text).length) (hj : j < (extractKeywords text).length)
    (hij : i < j)
    (hcount : (jsWords text).count ((extractKeywords text).get ⟨i, hi⟩) =
      (jsWords text).count ((extractKeywords text).get ⟨j, hj⟩)) :
    (jsWords text).indexOf ((extractKeywords text).get ⟨i, hi⟩) <
      (jsWords text).indexOf ((extractKeywords text).get ⟨j, hj⟩) := by
  set ws := jsWords text with hws
  set L := countWords ws with hLdef
  set S := List.insertionSort countGE L with hSdef
  have hout : extractKeywords text = (S.take 5).map Prod.fst := rfl
  have hlenS : (extractKeywords text).length ≤ S.length := by
    rw [hout, List.length_map, List.length_take]
    omega
  have hiS : i < S.length := lt_of_lt_of_le hi hlenS
  have hjS : j < S.length := lt_of_lt_of_le hj hlenS
  have hgeti : (extractKeywords text).get ⟨i, hi⟩ = (S.get ⟨i, hiS⟩).1 := by
    show ((S.take 5).map Prod.fst).get ⟨i, hi⟩ = (S.get ⟨i, hiS⟩).1
    simp [List.get_eq_getElem, List.getElem_map, List.getElem_take]
  have hgetj : (extractKeywords text).get ⟨j, hj⟩ = (S.get ⟨j, hjS⟩).1 := by
    show ((S.take 5).map Prod.fst).get ⟨j, hj⟩ = (S.get ⟨j, hjS⟩).1
    simp [List.get_eq_getElem, List.getElem_map, List.getElem_take]
  set e1 := S.get ⟨i, hiS⟩ with he1def
  set e2 := S.get ⟨j, hjS⟩ with he2def
  have hperm : S.Perm L := List.perm_insertionSort countGE L
  have hkeysnd : (L.map Prod.fst).Nodup := nodup_keys_countWords ws
  have hLnd : L.Nodup := List.Nodup.of_map Prod.fst hkeysnd
  have hSnd : S.Nodup := hperm.nodup_iff.mpr hLnd
  have he1L : e1 ∈ L := hperm.mem_iff.mp (List.get_mem S _ _)
  have he2L : e2 ∈ L := hperm.mem_iff.mp (List.get_mem S _ _)
  have hceq : e1.2 = e2.2 := by
    rw [countWords_entry_snd he1L, countWords_entry_snd he2L]
    rw [hgeti, hgetj] at hcount
    exact hcount
  have hkne : e1.1 ≠ e2.1 := by
    intro heq
    have he12 : e1 = e2 := Prod.ext heq hceq
    have hfin : (⟨i, hiS⟩ : Fin S.length) = ⟨j, hjS⟩ := hSnd.get_inj_iff.mp he12
    have hij2 : i = j := congrArg Fin.val hfin
    omega
  have hne12 : e1 ≠ e2 := fun he => hkne (congrArg Prod.fst he)
  rcases pair_sublist_or he1L he2L hne12 with hsub | hsub
  · have hsubk : List.Sublist [e1.1, e2.1] (L.map Prod.fst) := by
      simpa using hsub.map Prod.fst
    have hpair : List.Pairwise (fun a b => ws.indexOf a < ws.indexOf b) [e1.1, e2.1] :=
      (keys_pairwise_firstIdx ws).sublist hsubk
    have hres := (List.pairwise_cons.mp hpair).1 e2.1 (by simp)
    rw [hgeti, hgetj]
    exact hres
  · exfalso
    have hsubS : List.Sublist [e2, e1] S :=
      List.pair_sublist_insertionSort (le_of_eq hceq) hsub
    have hji : j < i := getElem_lt_of_pair_sublist hSnd hjS hiS hsubS
    omega

/-- Witness for C9: in `"alpha alpha bravo bravo"` both qualifying words occur
twice; the tie is broken by first occurrence. -/
theorem extractKeywords_tiebreak_witness :
    0 < (extractKeywords "alpha alpha bravo bravo").length ∧
    1 < (extractKeywords "alpha alpha bravo bravo").length ∧
    (jsWords "alpha alpha bravo bravo").indexOf
        ((extractKeywords "alpha alpha bravo bravo").get ⟨0, by decide⟩) <
      (jsWords "alpha alpha bravo bravo").indexOf
        ((extractKeywords "alpha alpha bravo bravo").get ⟨1, by decide⟩) :=
  ⟨by decide, by decide,
    extractKeywords_tiebreak "alpha alpha bravo bravo" 0 1
      (by decide) (by decide) (by decide) (by decide)⟩

/-- Witness for C6 at a concrete input and keyword. -/
theorem extractKeywords_spec_witness :
    (extractKeywords "hello world testing testing").length ≤ 5 ∧
    4 < "testing".length ∧ extractKeywords "" = [] :=
  ⟨(extractKeywords_spec "hello world testing testing").1,
    (extractKeywords_spec "hello world testing testing").2.1 "testing" (by decide),
    (extractKeywords_spec "hello world testing testing").2.2⟩

end RatComputable

end VideoMerlin
